import Mathlib

/-!
Verification development for the caching and coordination utilities of the
amp repository (`amp/utilities.py`).

The embedding models:
  * `FileDatabase` (the on-disk record store): an in-memory dictionary
    (`_memdict`), a loose directory (one file per key), and an optional
    compacted tar archive.  Serialisation (`pickle`) is an external
    collaborator, modelled by a `Pickle` structure whose `loads` inverts
    `dumps`.
  * `make_sublists` (the work partitioner) including its destructive
    consumption of the master list via repeated `pop()`.
  * the reply loop of `Data.calculate_items` (the coordination server).
  * `Data.calculate_items` itself (the cache orchestrator).
  * `assign_cores` (scheduler detection) over a modelled environment.
  * `hash_images` (duplicate-detecting hashing pass) over an abstract
    item hash function.
-/

namespace Amp

/-- Association-list lookup on the first component.  Models Python
dictionary lookup, lookup of a filename in a directory listing, and lookup
of a member name in a tar archive. -/
def alookup {κ β : Type} [DecidableEq κ] : List (κ × β) → κ → Option β
  | [], _ => none
  | (k, v) :: rest, key => if key = k then some v else alookup rest key

/-- Association-list insert-or-replace.  Models Python dictionary item
assignment and overwriting a file in a directory. -/
def upsert {κ β : Type} [DecidableEq κ] (key : κ) (v : β) : List (κ × β) → List (κ × β)
  | [] => [(key, v)]
  | (k, w) :: rest => if key = k then (key, v) :: rest else (k, w) :: upsert key v rest

theorem alookup_upsert_self {κ β : Type} [DecidableEq κ] (key : κ) (v : β)
    (l : List (κ × β)) : alookup (upsert key v l) key = some v := by
  induction l with
  | nil => simp [upsert, alookup]
  | cons p rest ih =>
    obtain ⟨k, w⟩ := p
    by_cases h : key = k <;> simp [upsert, alookup, h, ih]

theorem alookup_upsert_ne {κ β : Type} [DecidableEq κ] {key k' : κ} (v : β)
    (l : List (κ × β)) (h : k' ≠ key) :
    alookup (upsert key v l) k' = alookup l k' := by
  induction l with
  | nil => simp [upsert, alookup, h]
  | cons p rest ih =>
    obtain ⟨k, w⟩ := p
    by_cases hk : key = k
    · subst hk
      simp [upsert, alookup, h]
    · by_cases hk' : k' = k <;> simp [upsert, alookup, hk, hk', ih]

theorem alookup_append_some {κ β : Type} [DecidableEq κ] {l₁ l₂ : List (κ × β)}
    {key : κ} {b : β} (h : alookup l₁ key = some b) :
    alookup (l₁ ++ l₂) key = some b := by
  induction l₁ with
  | nil => simp [alookup] at h
  | cons p rest ih =>
    obtain ⟨k, w⟩ := p
    by_cases hk : key = k
    · simp [alookup, hk] at h ⊢
      exact h
    · simp [alookup, hk] at h ⊢
      exact ih h

theorem alookup_append_none {κ β : Type} [DecidableEq κ] {l₁ : List (κ × β)}
    (l₂ : List (κ × β)) {key : κ} (h : alookup l₁ key = none) :
    alookup (l₁ ++ l₂) key = alookup l₂ key := by
  induction l₁ with
  | nil => simp
  | cons p rest ih =>
    obtain ⟨k, w⟩ := p
    by_cases hk : key = k
    · simp [alookup, hk] at h
    · simp [alookup, hk] at h ⊢
      exact ih h

theorem alookup_filter_key {κ β : Type} [DecidableEq κ] {p : κ × β → Bool}
    {key : κ} (l : List (κ × β)) (h : ∀ b, p (key, b) = true) :
    alookup (l.filter p) key = alookup l key := by
  induction l with
  | nil => simp
  | cons e rest ih =>
    obtain ⟨k, w⟩ := e
    by_cases hk : key = k
    · subst hk
      simp [List.filter, h w, alookup, ih]
    · cases hp : p (k, w) <;> simp [List.filter, hp, alookup, hk, ih]

/-- Serialisation contract: `pickle.dumps` / `pickle.load`.  The pickle
module is an external collaborator; the only property used is that
deserialising a serialised value recovers it. -/
structure Pickle (V B : Type) where
  dumps : V → B
  loads : B → Option V
  loads_dumps : ∀ v, loads (dumps v) = some v

/-- State of a `FileDatabase` store: the in-memory cache `_memdict`
(holding deserialised values), the `loose/` directory (one serialised file
per key, the filename being the key), and the optional
`archive.tar.gz` file (member name ↦ serialised contents), `none` when
the archive file does not exist. -/
structure FileDatabase (V B : Type) where
  memdict : List (String × V)
  loose : List (String × B)
  tar : Option (List (String × B))

/-- Embedding of `FileDatabase.__getitem__`: consult the in-memory cache,
then the loose directory, then (if the archive file exists) the archive.
`none` models `KeyError` (and an unreadable payload). -/
def getitem {V B : Type} (p : Pickle V B) (db : FileDatabase V B) (key : String) :
    Option V :=
  match alookup db.memdict key with
  | some v => some v
  | none =>
    match alookup db.loose key with
    | some b => p.loads b
    | none =>
      match db.tar with
      | some t => (alookup t key).bind p.loads
      | none => none

/-- Embedding of `FileDatabase.__setitem__`: update the in-memory cache;
skip the file write when an identical serialised value is already on disk,
otherwise (over)write the loose file. -/
def setitem {V B : Type} [DecidableEq B] (p : Pickle V B) (db : FileDatabase V B)
    (key : String) (v : V) : FileDatabase V B :=
  let db' : FileDatabase V B := { db with memdict := upsert key v db.memdict }
  match alookup db.loose key with
  | some b =>
    if b = p.dumps v then db'
    else { db' with loose := upsert key (p.dumps v) db.loose }
  | none => { db' with loose := upsert key (p.dumps v) db.loose }

/-- Embedding of `FileDatabase.keys`: loose filenames, united (as a set)
with the archive member names when the archive exists. -/
def keysList {V B : Type} (db : FileDatabase V B) : List String :=
  match db.tar with
  | none => db.loose.map Prod.fst
  | some t => ((db.loose.map Prod.fst) ++ (t.map Prod.fst)).dedup

/-- Embedding of `FileDatabase.archive`: no action when the loose
directory is empty; otherwise extract every archive member not shadowed by
a loose file into the loose directory, write all loose files into a fresh
archive, and delete the loose files.  The in-memory cache is untouched. -/
def archive {V B : Type} (db : FileDatabase V B) : FileDatabase V B :=
  if db.loose.isEmpty then db
  else
    let extracted : List (String × B) :=
      match db.tar with
      | none => []
      | some t => t.filter (fun e => (alookup db.loose e.1).isNone)
    { db with loose := [], tar := some (db.loose ++ extracted) }

theorem setitem_memdict {V B : Type} [DecidableEq B] (p : Pickle V B)
    (db : FileDatabase V B) (key : String) (v : V) :
    (setitem p db key v).memdict = upsert key v db.memdict := by
  unfold setitem
  cases alookup db.loose key with
  | none => rfl
  | some b => by_cases h : b = p.dumps v <;> simp [h]

/-- C1: RecordStore round-trip — for every key and value, `put(key, value)`
followed by `get(key)` on the same store returns the original value,
regardless of the store's prior contents at that key. -/
theorem put_get_roundtrip {V B : Type} [DecidableEq B] (p : Pickle V B)
    (db : FileDatabase V B) (key : String) (v : V) :
    getitem p (setitem p db key v) key = some v := by
  unfold getitem
  rw [setitem_memdict, alookup_upsert_self]

theorem ne_nil_of_alookup_some {κ β : Type} [DecidableEq κ] {l : List (κ × β)}
    {key : κ} {b : β} (h : alookup l key = some b) : l ≠ [] := by
  intro hl
  subst hl
  simp [alookup] at h

/-- C2: loose precedence — a key stored with value A in the archive and a
different value B as a loose entry (and absent from the in-memory cache)
reads as B, both before and after one compaction pass. -/
theorem loose_precedence {V B : Type} [DecidableEq B] (p : Pickle V B)
    (db : FileDatabase V B) (key : String) (vA vB : V) (t : List (String × B))
    (hmem : alookup db.memdict key = none)
    (hloose : alookup db.loose key = some (p.dumps vB))
    (_htar : db.tar = some t)
    (_htk : alookup t key = some (p.dumps vA))
    (_hne : vA ≠ vB) :
    getitem p db key = some vB ∧ getitem p (archive db) key = some vB := by
  constructor
  · unfold getitem
    rw [hmem, hloose]
    simp [p.loads_dumps]
  · have hne : db.loose.isEmpty = false := by
      cases hl : db.loose with
      | nil => exact absurd hloose (by simp [hl, alookup])
      | cons a l => simp
    unfold archive
    rw [hne]
    simp only [Bool.false_eq_true, if_false]
    unfold getitem
    rw [hmem]
    simp only [alookup]
    rw [alookup_append_some hloose]
    simp [p.loads_dumps]

theorem archive_archive {V B : Type} (db : FileDatabase V B) :
    archive (archive db) = archive db := by
  unfold archive
  cases h : db.loose.isEmpty with
  | true => simp [h]
  | false => simp [h, List.isEmpty]

theorem getitem_archive {V B : Type} (p : Pickle V B) (db : FileDatabase V B)
    (key : String) : getitem p (archive db) key = getitem p db key := by
  cases hl : db.loose with
  | nil => simp [archive, hl]
  | cons a l =>
    have hne : db.loose.isEmpty = false := by rw [hl]; rfl
    unfold archive
    rw [hne]
    simp only [Bool.false_eq_true, if_false]
    unfold getitem
    cases hm : alookup db.memdict key with
    | some v => simp
    | none =>
      simp only [alookup]
      cases h2 : alookup db.loose key with
      | some b =>
        rw [alookup_append_some h2]
        simp
      | none =>
        rw [alookup_append_none _ h2]
        cases htar : db.tar with
        | none => simp [alookup]
        | some t =>
          rw [alookup_filter_key t (fun b => by simp [h2])]

/-- C3: compaction idempotence — running `archive` twice yields the same
`keys()` set and the same value for every key as running it once, and one
compaction pass never changes the value read for any key (in particular it
never loses the most-recent value). -/
theorem archive_idempotent_and_lossless {V B : Type} (p : Pickle V B)
    (db : FileDatabase V B) :
    (∀ k, k ∈ keysList (archive (archive db)) ↔ k ∈ keysList (archive db)) ∧
    (∀ k, getitem p (archive (archive db)) k = getitem p (archive db) k) ∧
    (∀ k, getitem p (archive db) k = getitem p db k) := by
  refine ⟨fun k => ?_, fun k => ?_, fun k => getitem_archive p db k⟩
  · rw [archive_archive]
  · rw [archive_archive]

/-- Concrete serialiser used by witnesses: values and byte strings are both
naturals, `dumps` is the identity. -/
def natPickle : Pickle Nat Nat where
  dumps := fun v => v
  loads := fun b => some b
  loads_dumps := fun _ => rfl

/-- Witness for C2 at a concrete store: key "k" holds 1 in the archive and
2 loose; both reads return 2. -/
theorem loose_precedence_witness :
    getitem natPickle ⟨[], [("k", 2)], some [("k", 1)]⟩ "k" = some 2 ∧
    getitem natPickle (archive ⟨[], [("k", 2)], some [("k", 1)]⟩) "k" = some 2 :=
  loose_precedence natPickle ⟨[], [("k", 2)], some [("k", 1)]⟩ "k" 1 2 [("k", 1)]
    (by rfl) (by rfl) (by rfl) (by rfl) (by decide)

/-- Embedding of repeated `masterlist.pop()` (`k` pops): returns the popped
elements in pop order (last element first) together with the remaining
list.  Popping an empty list would raise `IndexError` in Python; that case
is modelled as stopping (it is never reached in `make_sublists`). -/
def popMany {α : Type} : Nat → List α → List α × List α
  | 0, l => ([], l)
  | k + 1, l =>
    match l.getLast? with
    | none => ([], l)
    | some x =>
      let r := popMany k l.dropLast
      (x :: r.1, r.2)

theorem eq_dropLast_concat_of_getLast?_eq_some {α : Type} :
    ∀ {l : List α} {x : α}, l.getLast? = some x → l = l.dropLast ++ [x]
  | [], x, h => by simp [List.getLast?] at h
  | [a], x, h => by
    simp [List.getLast?] at h
    simp [h]
  | a :: b :: l, x, h => by
    rw [List.getLast?_cons_cons] at h
    have ih := eq_dropLast_concat_of_getLast?_eq_some (l := b :: l) h
    calc a :: b :: l = a :: ((b :: l).dropLast ++ [x]) := by rw [← ih]
    _ = (a :: b :: l).dropLast ++ [x] := by simp [List.dropLast]

theorem popMany_rest_length {α : Type} : ∀ (k : Nat) (l : List α),
    (popMany k l).2.length = l.length - k
  | 0, l => by simp [popMany]
  | k + 1, l => by
    unfold popMany
    cases h : l.getLast? with
    | none =>
      have : l = [] := by
        cases l with
        | nil => rfl
        | cons a t => simp [List.getLast?_eq_getLast] at h
      subst this
      simp
    | some x =>
      simp only
      rw [popMany_rest_length k l.dropLast, List.length_dropLast, Nat.sub_sub]
      omega

theorem popMany_perm {α : Type} : ∀ (k : Nat) (l : List α),
    ((popMany k l).1 ++ (popMany k l).2).Perm l
  | 0, l => by simp [popMany]
  | k + 1, l => by
    unfold popMany
    cases h : l.getLast? with
    | none => simp
    | some x =>
      simp only [List.cons_append]
      have ih := popMany_perm k l.dropLast
      have hl : l = l.dropLast ++ [x] := eq_dropLast_concat_of_getLast?_eq_some h
      have hstep : (x :: ((popMany k l.dropLast).1 ++ (popMany k l.dropLast).2)).Perm
          (l.dropLast ++ [x]) :=
        (ih.cons x).trans (List.perm_append_singleton x l.dropLast).symm
      rw [← hl] at hstep
      exact hstep

theorem popMany_fst_length {α : Type} : ∀ (k : Nat) (l : List α), k ≤ l.length →
    (popMany k l).1.length = k
  | 0, l, _ => by simp [popMany]
  | k + 1, l, h => by
    unfold popMany
    cases hg : l.getLast? with
    | none =>
      exfalso
      have : l = [] := by
        cases l with
        | nil => rfl
        | cons a t => simp [List.getLast?_eq_getLast] at hg
      subst this
      simp at h
    | some x =>
      simp only [List.length_cons]
      rw [popMany_fst_length k l.dropLast]
      rw [List.length_dropLast]
      omega

/-- Embedding of the sublist-building loop of `make_sublists`: consume the
given number of elements off the end of the list for each requested
sublist length, returning the sublists and what remains of the master
list. -/
def make_sublists_go {α : Type} : List Nat → List α → List (List α) × List α
  | [], l => ([], l)
  | k :: ks, l =>
    let r1 := popMany k l
    let r2 := make_sublists_go ks r1.2
    (r1.1 :: r2.1, r2.2)

/-- Embedding of the `sublist_lengths` list comprehension of
`make_sublists`: slot `i` receives `N // n + 1` elements when `i < N % n`
and `N // n` otherwise. -/
def sublist_lengths (N n : Nat) : List Nat :=
  (List.range n).map (fun i => if N % n ≤ i then N / n else N / n + 1)

/-- Embedding of `make_sublists`.  `np.random.shuffle` permutes the master
list in place before the division; the embedding takes the already
shuffled list as input (every property proved below is quantified over all
orderings, so it holds for every shuffle outcome).  The second component
is the state of the caller's master list after the call (the function
consumes it by popping). -/
def make_sublists {α : Type} (masterlist : List α) (n : Nat) :
    List (List α) × List α :=
  make_sublists_go (sublist_lengths masterlist.length n) masterlist

theorem make_sublists_go_length {α : Type} : ∀ (ks : List Nat) (l : List α),
    (make_sublists_go ks l).1.length = ks.length
  | [], l => rfl
  | k :: ks, l => by
    unfold make_sublists_go
    simp [make_sublists_go_length ks]

theorem make_sublists_go_rest_length {α : Type} : ∀ (ks : List Nat) (l : List α),
    (make_sublists_go ks l).2.length = l.length - ks.sum
  | [], l => by simp [make_sublists_go]
  | k :: ks, l => by
    unfold make_sublists_go
    simp only [List.sum_cons]
    rw [make_sublists_go_rest_length ks, popMany_rest_length, Nat.sub_sub]

theorem make_sublists_go_perm {α : Type} : ∀ (ks : List Nat) (l : List α),
    ((make_sublists_go ks l).1.flatten ++ (make_sublists_go ks l).2).Perm l
  | [], l => by simp [make_sublists_go]
  | k :: ks, l => by
    unfold make_sublists_go
    simp only [List.flatten, List.append_assoc]
    exact ((make_sublists_go_perm ks (popMany k l).2).append_left
      (popMany k l).1).trans (popMany_perm k l)

theorem make_sublists_go_map_length {α : Type} : ∀ (ks : List Nat) (l : List α),
    ks.sum ≤ l.length → (make_sublists_go ks l).1.map List.length = ks
  | [], l, _ => rfl
  | k :: ks, l, h => by
    unfold make_sublists_go
    simp only [List.sum_cons] at h
    have hk : k ≤ l.length := le_trans (Nat.le_add_right k ks.sum) h
    have hrest : ks.sum ≤ (popMany k l).2.length := by
      rw [popMany_rest_length]
      omega
    simp only [List.map_cons]
    rw [popMany_fst_length k l hk, make_sublists_go_map_length ks _ hrest]

theorem sum_range_if (q r : Nat) : ∀ (m : Nat),
    ((List.range m).map (fun i => if r ≤ i then q else q + 1)).sum
      = m * q + min m r
  | 0 => by simp
  | m + 1 => by
    rw [List.range_succ, List.map_append, List.sum_append]
    rw [sum_range_if q r m]
    simp only [List.map_cons, List.map_nil, List.sum_cons, List.sum_nil]
    by_cases h : r ≤ m
    · rw [if_pos h]
      have h1 : min m r = r := by omega
      have h2 : min (m + 1) r = r := by omega
      rw [h1, h2]
      ring
    · rw [if_neg h]
      have h1 : min m r = m := by omega
      have h2 : min (m + 1) r = m + 1 := by omega
      rw [h1, h2]
      ring

theorem sum_sublist_lengths (N n : Nat) (h : 1 ≤ n) :
    (sublist_lengths N n).sum = N := by
  unfold sublist_lengths
  rw [sum_range_if (N / n) (N % n) n]
  have hlt : N % n < n := Nat.mod_lt N h
  have hmin : min n (N % n) = N % n := by omega
  rw [hmin]
  exact Nat.div_add_mod N n

/-- C5: partition coverage and balance — for a key list of length `L`
without duplicates and a worker count `n` with `1 ≤ n ≤ L`,
`make_sublists` returns exactly `n` sublists that are pairwise disjoint,
whose union is the input set, and whose lengths are `L / n + 1` for the
first `L % n` slots and `L / n` for the remaining slots (so lengths differ
by at most one, the earlier sublists receiving the extra elements). -/
theorem make_sublists_spec {α : Type} (l : List α) (n : Nat)
    (h1 : 1 ≤ n) (_h2 : n ≤ l.length) (hnd : l.Nodup) :
    (make_sublists l n).1.length = n ∧
    (make_sublists l n).1.Pairwise List.Disjoint ∧
    (∀ x, x ∈ (make_sublists l n).1.flatten ↔ x ∈ l) ∧
    (make_sublists l n).1.map List.length =
      (List.range n).map
        (fun i => if i < l.length % n then l.length / n + 1 else l.length / n) := by
  have hsum : (sublist_lengths l.length n).sum = l.length :=
    sum_sublist_lengths l.length n h1
  have hrest : (make_sublists l n).2 = [] := by
    apply List.eq_nil_of_length_eq_zero
    unfold make_sublists
    rw [make_sublists_go_rest_length, hsum]
    omega
  have hperm : ((make_sublists l n).1.flatten).Perm l := by
    have := make_sublists_go_perm (sublist_lengths l.length n) l
    unfold make_sublists
    rw [show make_sublists_go (sublist_lengths l.length n) l = make_sublists l n from rfl]
      at this ⊢
    rw [hrest] at this
    simpa using this
  refine ⟨?_, ?_, ?_, ?_⟩
  · unfold make_sublists
    rw [make_sublists_go_length]
    simp [sublist_lengths]
  · have hjoin : (make_sublists l n).1.flatten.Nodup := hperm.nodup_iff.mpr hnd
    exact (List.nodup_flatten.mp hjoin).2
  · intro x
    exact hperm.mem_iff
  · unfold make_sublists
    rw [make_sublists_go_map_length _ _ (by rw [hsum])]
    unfold sublist_lengths
    apply List.map_congr_left
    intro i _
    by_cases h : l.length % n ≤ i
    · rw [if_pos h, if_neg (by omega)]
    · rw [if_neg h, if_pos (by omega)]

/-- Witness for C5 at the concrete list `[0, 1, 2, 3, 4]` with 2 workers. -/
theorem make_sublists_spec_witness :
    (make_sublists [0, 1, 2, 3, 4] 2).1.length = 2 ∧
    (make_sublists [0, 1, 2, 3, 4] 2).1.Pairwise List.Disjoint ∧
    (∀ x, x ∈ (make_sublists [0, 1, 2, 3, 4] 2).1.flatten ↔ x ∈ [0, 1, 2, 3, 4]) ∧
    (make_sublists [0, 1, 2, 3, 4] 2).1.map List.length =
      (List.range 2).map
        (fun i => if i < ([0, 1, 2, 3, 4] : List Nat).length % 2
          then ([0, 1, 2, 3, 4] : List Nat).length / 2 + 1
          else ([0, 1, 2, 3, 4] : List Nat).length / 2) :=
  make_sublists_spec [0, 1, 2, 3, 4] 2 (by decide) (by decide) (by decide)

/-- C10: partitioning empties its input — after `make_sublists(masterlist, n)`
with `n ≥ 1`, the caller's master list (modelled as the second component of
the result) has been fully consumed by the repeated `pop()` calls. -/
theorem make_sublists_consumes_input {α : Type} (l : List α) (n : Nat)
    (h : 1 ≤ n) : (make_sublists l n).2 = [] := by
  apply List.eq_nil_of_length_eq_zero
  unfold make_sublists
  rw [make_sublists_go_rest_length, sum_sublist_lengths l.length n h]
  omega

/-- Witness for C10 at a concrete list. -/
theorem make_sublists_consumes_input_witness :
    (make_sublists [10, 20, 30] 2).2 = ([] : List Nat) :=
  make_sublists_consumes_input [10, 20, 30] 2 (by decide)

/-- Message subjects of the coordination protocol
(`<purpose>`, `<request>`, `<result>`, `<info>`). -/
inductive Subject where
  | purpose
  | request
  | result
  | info
deriving DecidableEq, Repr

/-- Embedding of a worker message (`MessageDictionary`): sender id,
subject, and the (key ↦ value) payload carried by a `<result>` message
(the payload of the other subjects does not influence the reply loop's
state). -/
structure Msg (V : Type) where
  id : Nat
  subject : Subject
  data : List (String × V)
deriving DecidableEq, Repr

/-- State of the reply loop of `Data.calculate_items`: the `active` count
of processes currently calculating and the accumulated `results` map. -/
structure ServerState (V : Type) where
  active : Int
  results : List (String × V)
deriving DecidableEq, Repr

/-- Embedding of `results.update(result)`: merge the returned pairs into
the results dictionary, later pairs overwriting earlier ones. -/
def updateResults {V : Type} (results data : List (String × V)) :
    List (String × V) :=
  data.foldl (fun acc kv => upsert kv.1 kv.2 acc) results

/-- Processing of one message by the reply loop: `<purpose>` increments
`active`, `<result>` decrements `active` and merges the returned pairs,
`<request>` and `<info>` only produce replies (not modelled, as they do
not change the loop state). -/
def stepMsg {V : Type} (s : ServerState V) (m : Msg V) : ServerState V :=
  match m.subject with
  | Subject.purpose => { s with active := s.active + 1 }
  | Subject.result =>
      { active := s.active - 1, results := updateResults s.results m.data }
  | _ => s

/-- Embedding of the `while True` reply loop of `Data.calculate_items`:
process arriving messages one at a time and break as soon as `active == 0`
after a message (the check runs after every message).  The argument list
is the (finite) arrival-ordered message trace; `none` models the loop
blocking forever on `recv` after exhausting the trace.  On exit, returns
the final state and the unconsumed messages. -/
def serverLoop {V : Type} : List (Msg V) → ServerState V →
    Option (ServerState V × List (Msg V))
  | [], _ => none
  | m :: rest, s =>
    let s' := stepMsg s m
    if s'.active = 0 then some (s', rest) else serverLoop rest s'

/-- Cumulative effect of processing a message list without the exit
check. -/
def foldMsgs {V : Type} (msgs : List (Msg V)) (s : ServerState V) :
    ServerState V :=
  msgs.foldl stepMsg s

/-- Number of `<purpose>` messages in a trace. -/
def purposeCount {V : Type} : List (Msg V) → Nat
  | [] => 0
  | m :: rest =>
    (match m.subject with | Subject.purpose => 1 | _ => 0) + purposeCount rest

/-- Number of `<result>` messages in a trace. -/
def resultCount {V : Type} : List (Msg V) → Nat
  | [] => 0
  | m :: rest =>
    (match m.subject with | Subject.result => 1 | _ => 0) + resultCount rest

theorem foldMsgs_active {V : Type} : ∀ (msgs : List (Msg V)) (s : ServerState V),
    (foldMsgs msgs s).active =
      s.active + (purposeCount msgs : Int) - (resultCount msgs : Int)
  | [], s => by simp [foldMsgs, purposeCount, resultCount]
  | m :: rest, s => by
    have ih := foldMsgs_active rest (stepMsg s m)
    rw [show foldMsgs (m :: rest) s = foldMsgs rest (stepMsg s m) from rfl] at *
    rw [ih]
    cases hs : m.subject <;>
      simp [stepMsg, purposeCount, resultCount, hs] <;> omega

theorem serverLoop_sound {V : Type} :
    ∀ (msgs : List (Msg V)) (st s : ServerState V) (rest : List (Msg V)),
    serverLoop msgs st = some (s, rest) →
    ∃ n, 1 ≤ n ∧ n ≤ msgs.length ∧ rest = msgs.drop n ∧
      s = foldMsgs (msgs.take n) st ∧ (foldMsgs (msgs.take n) st).active = 0 ∧
      ∀ m, 1 ≤ m → m < n → (foldMsgs (msgs.take m) st).active ≠ 0
  | [], st, s, rest, h => by simp [serverLoop] at h
  | mg :: ms, st, s, rest, h => by
    rw [serverLoop] at h
    by_cases hz : (stepMsg st mg).active = 0
    · rw [if_pos hz] at h
      obtain ⟨hs, hrest⟩ : stepMsg st mg = s ∧ ms = rest := by
        constructor <;> [exact congrArg Prod.fst (Option.some.inj h);
          exact congrArg Prod.snd (Option.some.inj h)]
      refine ⟨1, le_refl 1, by simp, hrest.symm, ?_, ?_, ?_⟩
      · simp [foldMsgs, hs]
      · simpa [foldMsgs] using hz
      · intro m hm1 hm2
        omega
    · rw [if_neg hz] at h
      obtain ⟨n, hn1, hn2, hrest, hs, hact, hmin⟩ :=
        serverLoop_sound ms (stepMsg st mg) s rest h
      refine ⟨n + 1, by omega, by simp; omega, by simpa using hrest, ?_, ?_, ?_⟩
      · simpa [foldMsgs] using hs
      · simpa [foldMsgs] using hact
      · intro m hm1 hm2
        cases m with
        | zero => omega
        | succ j =>
          cases j with
          | zero =>
            simpa [foldMsgs] using hz
          | succ i =>
            have := hmin (i + 1) (by omega) (by omega)
            simpa [foldMsgs] using this

theorem serverLoop_complete {V : Type} :
    ∀ (msgs : List (Msg V)) (st : ServerState V) (n : Nat),
    1 ≤ n → n ≤ msgs.length →
    (foldMsgs (msgs.take n) st).active = 0 →
    (∀ m, 1 ≤ m → m < n → (foldMsgs (msgs.take m) st).active ≠ 0) →
    serverLoop msgs st = some (foldMsgs (msgs.take n) st, msgs.drop n)
  | [], st, n, h1, h2, _, _ => by simp at h2; omega
  | mg :: ms, st, n, h1, h2, h3, h4 => by
    obtain ⟨n', rfl⟩ : ∃ n', n = n' + 1 := ⟨n - 1, by omega⟩
    by_cases hz : (stepMsg st mg).active = 0
    · have hn0 : n' = 0 := by
        by_contra hne
        exact h4 1 (by omega) (by omega) (by simpa [foldMsgs] using hz)
      subst hn0
      rw [serverLoop, if_pos hz]
      simp [foldMsgs]
    · have hn' : 1 ≤ n' := by
        by_contra hne
        have : n' = 0 := by omega
        subst this
        exact hz (by simpa [foldMsgs] using h3)
      rw [serverLoop, if_neg hz]
      have hrec := serverLoop_complete ms (stepMsg st mg) n' hn'
        (by simpa using h2)
        (by simpa [foldMsgs] using h3)
        (fun m hm1 hm2 => by
          have := h4 (m + 1) (by omega) (by omega)
          simpa [foldMsgs] using this)
      rw [hrec]
      simp [foldMsgs]

/-- Counterexample trace: one launched worker (all sender ids below 1)
whose first message is an `<info>` diagnostic. -/
def cexMsgs : List (Msg Nat) :=
  [⟨0, Subject.info, []⟩, ⟨0, Subject.purpose, []⟩,
   ⟨0, Subject.result, [("k", 7)]⟩]

/-- Counterexample for C4: with N = 1 launched worker whose messages arrive
in the order info, purpose, result, the reply loop exits after consuming
only the `<info>` message (the `active == 0` check runs after every
message and `active` starts at 0), i.e. before the worker — let alone all
workers — has delivered its `<result>` message. -/
theorem serverLoop_early_exit_cex :
    (∀ m ∈ cexMsgs, m.id < 1) ∧
    serverLoop cexMsgs ⟨0, []⟩ = some (⟨0, []⟩, cexMsgs.drop 1) ∧
    ∀ m ∈ cexMsgs.take 1, m.subject ≠ Subject.result := by
  refine ⟨by decide, rfl, by decide⟩

/-- C4 (amended): the reply loop exits exactly after the shortest nonempty
prefix of the arrival-ordered message trace in which the number of
processed `<purpose>` messages equals the number of processed `<result>`
messages (the `active == 0` check runs after every message, starting from
zero); it does not in general wait for all launched workers to deliver
their results. -/
theorem serverLoop_exits_at_first_balance (V : Type) :
    (∀ (msgs : List (Msg V)) (s : ServerState V) (rest : List (Msg V)),
      serverLoop msgs ⟨0, []⟩ = some (s, rest) →
      ∃ n, 1 ≤ n ∧ n ≤ msgs.length ∧ rest = msgs.drop n ∧
        s = foldMsgs (msgs.take n) ⟨0, []⟩ ∧
        purposeCount (msgs.take n) = resultCount (msgs.take n) ∧
        ∀ m, 1 ≤ m → m < n →
          purposeCount (msgs.take m) ≠ resultCount (msgs.take m)) ∧
    (∀ (msgs : List (Msg V)) (n : Nat), 1 ≤ n → n ≤ msgs.length →
      purposeCount (msgs.take n) = resultCount (msgs.take n) →
      (∀ m, 1 ≤ m → m < n →
        purposeCount (msgs.take m) ≠ resultCount (msgs.take m)) →
      serverLoop msgs ⟨0, []⟩ =
        some (foldMsgs (msgs.take n) ⟨0, []⟩, msgs.drop n)) := by
  have hbal : ∀ (p : List (Msg V)),
      (foldMsgs p (⟨0, []⟩ : ServerState V)).active = 0 ↔
        purposeCount p = resultCount p := by
    intro p
    rw [foldMsgs_active]
    show (0 : Int) + (purposeCount p : Int) - (resultCount p : Int) = 0 ↔ _
    omega
  constructor
  · intro msgs s rest h
    obtain ⟨n, hn1, hn2, hrest, hs, hact, hmin⟩ :=
      serverLoop_sound msgs ⟨0, []⟩ s rest h
    exact ⟨n, hn1, hn2, hrest, hs, (hbal _).mp hact,
      fun m hm1 hm2 hp => hmin m hm1 hm2 ((hbal _).mpr hp)⟩
  · intro msgs n hn1 hn2 hp hmin
    exact serverLoop_complete msgs ⟨0, []⟩ n hn1 hn2 ((hbal _).mpr hp)
      (fun m hm1 hm2 hz => hmin m hm1 hm2 ((hbal _).mp hz))

/-- Witness for C4's amended theorem: on the trace purpose-then-result the
loop exits after the full two-message prefix (the first point where the
purpose and result counts agree). -/
theorem serverLoop_exits_at_first_balance_witness :
    serverLoop [(⟨0, Subject.purpose, []⟩ : Msg Nat),
        ⟨0, Subject.result, [("k", 7)]⟩] ⟨0, []⟩ =
      some (foldMsgs ([(⟨0, Subject.purpose, []⟩ : Msg Nat),
        ⟨0, Subject.result, [("k", 7)]⟩].take 2) ⟨0, []⟩,
        [(⟨0, Subject.purpose, []⟩ : Msg Nat),
        ⟨0, Subject.result, [("k", 7)]⟩].drop 2) :=
  (serverLoop_exits_at_first_balance Nat).2
    [⟨0, Subject.purpose, []⟩, ⟨0, Subject.result, [("k", 7)]⟩] 2
    (by decide) (by decide) (by decide)
    (fun m hm1 hm2 => by
      interval_cases m
      decide)

/-- Outcome of one `Data.calculate_items` run: the resulting store state,
the number of store writes (`d[key] = ...` / `d.update` entries)
performed, and the number of worker processes launched. -/
structure CalcResult (V B : Type) where
  db : FileDatabase V B
  writes : Nat
  launches : Nat

/-- Embedding of `FileDatabase.update`: write every (key, value) pair of
`newitems` through `__setitem__`. -/
def dbUpdate {V B : Type} [DecidableEq B] (p : Pickle V B)
    (db : FileDatabase V B) (newitems : List (String × V)) : FileDatabase V B :=
  newitems.foldl (fun d kv => setitem p d kv.1 kv.2) db

/-- Embedding of `Data.calculate_items`.  `imageKeys`/`imageVal` model the
`images` dictionary, `calcFn` the external `calc.calculate` contract,
`cores` the parallel core count (`parallel['cores'] == 1` selects the
serial path), `nPids` the total number of worker processes the parallel
path would launch, and `trace` the arrival-ordered message trace the
reply loop would see.  `calcs_needed` is the set difference of the image
keys and the store keys; when it is empty the function returns at once.
The result is `none` when the parallel reply loop blocks forever. -/
def calculate_items {V B : Type} [DecidableEq B] (p : Pickle V B)
    (db : FileDatabase V B) (imageKeys : List String) (imageVal : String → V)
    (cores : Nat) (calcFn : V → String → V) (nPids : Nat)
    (trace : List (Msg V)) : Option (CalcResult V B) :=
  let calcs_needed := imageKeys.dedup.filter (fun k => decide (k ∉ keysList db))
  if calcs_needed.isEmpty then some ⟨db, 0, 0⟩
  else if cores = 1 then
    some ⟨dbUpdate p db (calcs_needed.map (fun k => (k, calcFn (imageVal k) k))),
      calcs_needed.length, 0⟩
  else
    (serverLoop trace ⟨0, []⟩).map
      (fun sr => ⟨dbUpdate p db sr.1.results, sr.1.results.length, nPids⟩)

/-- C6: orchestration no-op — when every key of the input image set is
already present in the store, `calculate_items` returns immediately with
the store unchanged, zero writes and zero worker launches. -/
theorem calculate_items_noop {V B : Type} [DecidableEq B] (p : Pickle V B)
    (db : FileDatabase V B) (imageKeys : List String) (imageVal : String → V)
    (cores : Nat) (calcFn : V → String → V) (nPids : Nat)
    (trace : List (Msg V)) (h : ∀ k ∈ imageKeys, k ∈ keysList db) :
    calculate_items p db imageKeys imageVal cores calcFn nPids trace =
      some ⟨db, 0, 0⟩ := by
  have hfil : imageKeys.dedup.filter (fun k => decide (k ∉ keysList db)) = [] := by
    rw [List.filter_eq_nil_iff]
    intro a ha
    simp only [decide_eq_true_eq, not_not]
    exact h a (List.mem_dedup.mp ha)
  unfold calculate_items
  rw [hfil]
  rfl

/-- Witness for C6 at a concrete store already containing the single
requested key. -/
theorem calculate_items_noop_witness :
    calculate_items natPickle ⟨[], [("k", 0)], none⟩ ["k"] (fun _ => 0) 1
      (fun v _ => v) 0 [] = some ⟨⟨[], [("k", 0)], none⟩, 0, 0⟩ :=
  calculate_items_noop natPickle ⟨[], [("k", 0)], none⟩ ["k"] (fun _ => 0) 1
    (fun v _ => v) 0 [] (by decide)

/-- State of the filesystem as far as `FileDatabase.__init__` observes and
changes it: the set of existing directories. -/
structure FS where
  dirs : List String
deriving DecidableEq, Repr

/-- Suffix test on strings, written over the underlying character lists
(Python `str.endswith`). -/
def pyEndsWith (s suffix : String) : Bool :=
  decide (s.data.drop (s.data.length - suffix.data.length) = suffix.data)

/-- Embedding of the filename normalisation of `FileDatabase.__init__`:
append the `.ampdb` extension when it is missing. -/
def ampdbPath (filename : String) : String :=
  if pyEndsWith filename ".ampdb" then filename else filename ++ ".ampdb"

/-- Embedding of the directory-creating part of `FileDatabase.__init__`
(also reached through `FileDatabase.open`): when the root path does not
exist, create it and its `loose/` subdirectory; otherwise touch nothing. -/
def fdbInit (fs : FS) (filename : String) : FS :=
  if ampdbPath filename ∈ fs.dirs then fs
  else ⟨(ampdbPath filename ++ "/loose") :: ampdbPath filename :: fs.dirs⟩

/-- Counterexample for C9: when the store root directory exists but its
`loose/` subdirectory does not, opening the store creates nothing — in
particular the `loose/` subdirectory stays absent, contrary to the claim
that the structure is created whenever it is absent. -/
theorem fdbInit_missing_loose_cex :
    fdbInit ⟨["store.ampdb"]⟩ "store.ampdb" = ⟨["store.ampdb"]⟩ ∧
    "store.ampdb/loose" ∉ (fdbInit ⟨["store.ampdb"]⟩ "store.ampdb").dirs := by
  refine ⟨by decide, by decide⟩

/-- C9 (amended): opening a store creates the root directory and its
`loose/` subdirectory exactly when the root is absent; when the root
already exists (with or without `loose/`) nothing on disk changes, and
opening is idempotent. -/
theorem fdbInit_spec (fs : FS) (filename : String) :
    (ampdbPath filename ∉ fs.dirs →
      (fdbInit fs filename).dirs =
        (ampdbPath filename ++ "/loose") :: ampdbPath filename :: fs.dirs) ∧
    (ampdbPath filename ∈ fs.dirs → fdbInit fs filename = fs) ∧
    fdbInit (fdbInit fs filename) filename = fdbInit fs filename := by
  by_cases h : ampdbPath filename ∈ fs.dirs
  · refine ⟨fun hc => absurd h hc, fun _ => ?_, ?_⟩
    · simp [fdbInit, h]
    · simp [fdbInit, h]
  · refine ⟨fun _ => ?_, fun hc => absurd hc h, ?_⟩
    · simp [fdbInit, h]
    · simp [fdbInit, h]

/-- Witness for C9's amended theorem: opening on an empty filesystem
creates the root and `loose/`. -/
theorem fdbInit_spec_witness :
    (fdbInit ⟨[]⟩ "db").dirs =
      (ampdbPath "db" ++ "/loose") :: ampdbPath "db" :: ([] : List String) :=
  (fdbInit_spec ⟨[]⟩ "db").1 (by decide)

/-- Increment step of the duplicates registry in `hash_images`: a repeat
of an already-registered hash bumps its count, the first repeat of a hash
sets the count to 2. -/
def dupStep (dup : List (String × Nat)) (h : String) : List (String × Nat) :=
  match alookup dup h with
  | some c => upsert h (c + 1) dup
  | none => upsert h 2 dup

/-- Embedding of the hashing loop of `hash_images`: fold over the input
items accumulating the image dictionary, the duplicates registry and the
number of duplicate warnings logged.  `hashFn` models `get_hash` (the
deterministic content hash, an external digest). -/
def hash_images_go {I : Type} (hashFn : I → String) :
    List I → List (String × I) → List (String × Nat) → Nat →
      List (String × I) × List (String × Nat) × Nat
  | [], dict, dup, warn => (dict, dup, warn)
  | img :: rest, dict, dup, warn =>
    let h := hashFn img
    match alookup dict h with
    | some _ => hash_images_go hashFn rest (upsert h img dict) (dupStep dup h) (warn + 1)
    | none => hash_images_go hashFn rest (upsert h img dict) dup warn

/-- Embedding of `hash_images` on an in-memory item list: returns the
hash-indexed dictionary, the duplicates registry
(`dict_images.metadata['duplicates']`) and the number of duplicate
warnings written to the log. -/
def hash_images {I : Type} (hashFn : I → String) (images : List I) :
    List (String × I) × List (String × Nat) × Nat :=
  hash_images_go hashFn images [] [] 0

/-- Number of repeated occurrences in an item list: items whose hash
already occurred earlier (`seen` carries the hashes produced so far).
This is the spec-side count of duplicate warnings ("one warning per
repeated occurrence"). -/
def repeatedOccurrences {I : Type} (hashFn : I → String) :
    List I → List String → Nat
  | [], _ => 0
  | x :: xs, seen =>
    (if hashFn x ∈ seen then 1 else 0) + repeatedOccurrences hashFn xs (hashFn x :: seen)

theorem repeatedOccurrences_congr {I : Type} (hashFn : I → String) :
    ∀ (xs : List I) (s₁ s₂ : List String), (∀ a, a ∈ s₁ ↔ a ∈ s₂) →
      repeatedOccurrences hashFn xs s₁ = repeatedOccurrences hashFn xs s₂
  | [], _, _, _ => rfl
  | x :: xs, s₁, s₂, h => by
    unfold repeatedOccurrences
    rw [repeatedOccurrences_congr hashFn xs (hashFn x :: s₁) (hashFn x :: s₂)
      (fun a => by simp [h a])]
    by_cases hx : hashFn x ∈ s₁
    · rw [if_pos hx, if_pos ((h _).mp hx)]
    · rw [if_neg hx, if_neg (fun hc => hx ((h _).mpr hc))]

theorem getLast?_concat_self {α : Type} (l : List α) (a : α) :
    (l ++ [a]).getLast? = some a := by
  induction l with
  | nil => rfl
  | cons b t ih =>
    cases t with
    | nil => rfl
    | cons c u => simpa using ih

/-- Invariant of the hashing loop, generalised over the already-processed
items.  It characterises, relative to the full processed list: the image
dictionary (last item per hash), the duplicates registry (total occurrence
count, registered once a hash occurs at least twice) and the warning count
(one per repeated occurrence). -/
theorem hash_images_go_spec {I : Type} (hashFn : I → String) :
    ∀ (images processed : List I) (dict : List (String × I))
      (dup : List (String × Nat)) (warn : Nat),
    (∀ k, alookup dict k =
      (processed.filter (fun i => decide (hashFn i = k))).getLast?) →
    (∀ k, alookup dup k =
      if 2 ≤ (processed.map hashFn).count k
      then some ((processed.map hashFn).count k) else none) →
    (∀ k, alookup (hash_images_go hashFn images dict dup warn).1 k =
      ((processed ++ images).filter (fun i => decide (hashFn i = k))).getLast?) ∧
    (∀ k, alookup (hash_images_go hashFn images dict dup warn).2.1 k =
      if 2 ≤ ((processed ++ images).map hashFn).count k
      then some (((processed ++ images).map hashFn).count k) else none) ∧
    (hash_images_go hashFn images dict dup warn).2.2 =
      warn + repeatedOccurrences hashFn images (processed.map hashFn)
  | [], processed, dict, dup, warn, Hdict, Hdup => by
    refine ⟨?_, ?_, ?_⟩
    · intro k
      simpa [hash_images_go] using Hdict k
    · intro k
      simpa [hash_images_go] using Hdup k
    · simp [hash_images_go, repeatedOccurrences]
  | img :: rest, processed, dict, dup, warn, Hdict, Hdup => by
    have hmem : (alookup dict (hashFn img)).isSome ↔
        hashFn img ∈ processed.map hashFn := by
      rw [Hdict (hashFn img)]
      rw [List.getLast?_isSome]
      constructor
      · intro hne
        obtain ⟨i, hi⟩ := List.exists_mem_of_ne_nil _ hne
        have := List.of_mem_filter hi
        simp only [decide_eq_true_eq] at this
        exact this ▸ List.mem_map_of_mem hashFn (List.mem_of_mem_filter hi)
      · intro hm
        obtain ⟨i, hi, hhi⟩ := List.mem_map.mp hm
        intro hnil
        have : i ∈ processed.filter (fun i => decide (hashFn i = hashFn img)) :=
          List.mem_filter.mpr ⟨hi, by simp [hhi]⟩
        rw [hnil] at this
        simp at this
    have Hdict' : ∀ k, alookup (upsert (hashFn img) img dict) k =
        ((processed ++ [img]).filter (fun i => decide (hashFn i = k))).getLast? := by
      intro k
      by_cases hk : k = hashFn img
      · subst hk
        rw [alookup_upsert_self]
        rw [List.filter_append]
        simp only [List.filter, decide_True, decide_eq_true_eq]
        rw [getLast?_concat_self]
      · rw [alookup_upsert_ne _ _ hk, Hdict k, List.filter_append]
        have hdec : decide (hashFn img = k) = false := by
          simp only [decide_eq_false_iff_not]
          exact fun hc => hk hc.symm
        have : [img].filter (fun i => decide (hashFn i = k)) = [] := by
          simp [List.filter, hdec]
        rw [this, List.append_nil]
    have hcount : ∀ k, ((processed ++ [img]).map hashFn).count k =
        (processed.map hashFn).count k + if k = hashFn img then 1 else 0 := by
      intro k
      rw [List.map_append, List.count_append]
      by_cases hk : k = hashFn img
      · subst hk
        simp
      · rw [if_neg hk]
        have : List.count k [hashFn img] = 0 := by
          rw [List.count_eq_zero]
          intro hc
          exact hk (List.mem_singleton.mp hc)
        simp [this]
    cases hdl : alookup dict (hashFn img) with
    | some prev =>
      have hin : hashFn img ∈ processed.map hashFn := hmem.mp (by simp [hdl])
      have hc1 : 1 ≤ (processed.map hashFn).count (hashFn img) := by
        by_contra hcon
        have h0 : (processed.map hashFn).count (hashFn img) = 0 := by omega
        exact (List.count_eq_zero.mp h0) hin
      have Hdup' : ∀ k, alookup (dupStep dup (hashFn img)) k =
          if 2 ≤ ((processed ++ [img]).map hashFn).count k
          then some (((processed ++ [img]).map hashFn).count k) else none := by
        intro k
        by_cases hk : k = hashFn img
        · subst hk
          have hcnt : ((processed ++ [img]).map hashFn).count (hashFn img) =
              (processed.map hashFn).count (hashFn img) + 1 := by
            rw [hcount]
            simp
          rw [hcnt, if_pos (by omega)]
          unfold dupStep
          cases hdup : alookup dup (hashFn img) with
          | some c =>
            rw [Hdup (hashFn img)] at hdup
            by_cases h2 : 2 ≤ (processed.map hashFn).count (hashFn img)
            · rw [if_pos h2] at hdup
              obtain rfl : (processed.map hashFn).count (hashFn img) = c :=
                (Option.some.inj hdup)
              rw [alookup_upsert_self]
            · rw [if_neg h2] at hdup
              exact absurd hdup (by simp)
          | none =>
            rw [Hdup (hashFn img)] at hdup
            have h2 : ¬ 2 ≤ (processed.map hashFn).count (hashFn img) := by
              intro hc
              rw [if_pos hc] at hdup
              simp at hdup
            have hc2 : (processed.map hashFn).count (hashFn img) = 1 := by omega
            rw [alookup_upsert_self, hc2]
        · unfold dupStep
          rw [hcount k, if_neg hk, Nat.add_zero]
          cases alookup dup (hashFn img) with
          | some c => rw [alookup_upsert_ne _ _ hk, Hdup k]
          | none => rw [alookup_upsert_ne _ _ hk, Hdup k]
      have ih := hash_images_go_spec hashFn rest (processed ++ [img])
        (upsert (hashFn img) img dict) (dupStep dup (hashFn img)) (warn + 1)
        Hdict' Hdup'
      refine ⟨?_, ?_, ?_⟩
      · intro k
        have := ih.1 k
        rw [show hash_images_go hashFn (img :: rest) dict dup warn =
          hash_images_go hashFn rest (upsert (hashFn img) img dict)
            (dupStep dup (hashFn img)) (warn + 1) from by
            simp only [hash_images_go, hdl]] at *
        simpa [List.append_assoc] using this
      · intro k
        have := ih.2.1 k
        rw [show hash_images_go hashFn (img :: rest) dict dup warn =
          hash_images_go hashFn rest (upsert (hashFn img) img dict)
            (dupStep dup (hashFn img)) (warn + 1) from by
            simp only [hash_images_go, hdl]] at *
        simpa [List.append_assoc] using this
      · have := ih.2.2
        rw [show hash_images_go hashFn (img :: rest) dict dup warn =
          hash_images_go hashFn rest (upsert (hashFn img) img dict)
            (dupStep dup (hashFn img)) (warn + 1) from by
            simp only [hash_images_go, hdl]]
        rw [this]
        have hcongr := repeatedOccurrences_congr hashFn rest
          ((processed ++ [img]).map hashFn) (hashFn img :: processed.map hashFn)
          (fun a => by
            rw [List.map_append]
            simp [or_comm])
        have hro : repeatedOccurrences hashFn (img :: rest) (processed.map hashFn)
            = (if hashFn img ∈ processed.map hashFn then 1 else 0)
              + repeatedOccurrences hashFn rest (hashFn img :: processed.map hashFn) := rfl
        rw [hro, if_pos hin, hcongr]
        omega
    | none =>
      have hnin : hashFn img ∉ processed.map hashFn := by
        intro hc
        have := hmem.mpr hc
        rw [hdl] at this
        simp at this
      have hc0 : (processed.map hashFn).count (hashFn img) = 0 :=
        List.count_eq_zero.mpr hnin
      have Hdup' : ∀ k, alookup dup k =
          if 2 ≤ ((processed ++ [img]).map hashFn).count k
          then some (((processed ++ [img]).map hashFn).count k) else none := by
        intro k
        by_cases hk : k = hashFn img
        · subst hk
          have hcnt : ((processed ++ [img]).map hashFn).count (hashFn img) = 1 := by
            rw [hcount, hc0]
            simp
          rw [hcnt, if_neg (by omega), Hdup (hashFn img), hc0, if_neg (by omega)]
        · rw [hcount k, if_neg hk, Nat.add_zero, Hdup k]
      have ih := hash_images_go_spec hashFn rest (processed ++ [img])
        (upsert (hashFn img) img dict) dup warn Hdict' Hdup'
      refine ⟨?_, ?_, ?_⟩
      · intro k
        have := ih.1 k
        rw [show hash_images_go hashFn (img :: rest) dict dup warn =
          hash_images_go hashFn rest (upsert (hashFn img) img dict) dup warn from by
            simp only [hash_images_go, hdl]] at *
        simpa [List.append_assoc] using this
      · intro k
        have := ih.2.1 k
        rw [show hash_images_go hashFn (img :: rest) dict dup warn =
          hash_images_go hashFn rest (upsert (hashFn img) img dict) dup warn from by
            simp only [hash_images_go, hdl]] at *
        simpa [List.append_assoc] using this
      · have := ih.2.2
        rw [show hash_images_go hashFn (img :: rest) dict dup warn =
          hash_images_go hashFn rest (upsert (hashFn img) img dict) dup warn from by
            simp only [hash_images_go, hdl]]
        rw [this]
        have hcongr := repeatedOccurrences_congr hashFn rest
          ((processed ++ [img]).map hashFn) (hashFn img :: processed.map hashFn)
          (fun a => by
            rw [List.map_append]
            simp [or_comm])
        have hro : repeatedOccurrences hashFn (img :: rest) (processed.map hashFn)
            = (if hashFn img ∈ processed.map hashFn then 1 else 0)
              + repeatedOccurrences hashFn rest (hashFn img :: processed.map hashFn) := rfl
        rw [hro, if_neg hnin, hcongr]
        omega

/-- Counterexample for C8: hashing the two identical items `[5, 5]` (hash
`"5"`), the registry records 2 for key `"5"`, but the key was produced
again only once after its first insertion — the registry stores the total
occurrence count, not the count of re-productions claimed. -/
theorem hash_images_registry_cex :
    alookup (hash_images (fun n : Nat => toString n) [5, 5]).2.1 "5" = some 2 ∧
    (((([5, 5] : List Nat).map (fun n => toString n)).count "5") - 1 = 1) ∧
    alookup (hash_images (fun n : Nat => toString n) [5, 5]).2.1 "5" ≠ some 1 := by
  refine ⟨by decide, by decide, by decide⟩

/-- C8 (amended): `hash_images` returns a dictionary containing every
produced key (no key suppressed), mapping each key to the last item seen
for it in input order; it logs one duplicate warning per repeated
occurrence; and the duplicates registry maps each repeated key to the
total number of times that key was produced during the pass (one more than
the number of times it was produced again after first insertion). -/
theorem hash_images_spec {I : Type} (hashFn : I → String) (images : List I) :
    (∀ k, (alookup (hash_images hashFn images).1 k).isSome ↔
      k ∈ images.map hashFn) ∧
    (∀ k, alookup (hash_images hashFn images).1 k =
      (images.filter (fun i => decide (hashFn i = k))).getLast?) ∧
    (hash_images hashFn images).2.2 = repeatedOccurrences hashFn images [] ∧
    (∀ k, alookup (hash_images hashFn images).2.1 k =
      if 2 ≤ (images.map hashFn).count k
      then some ((images.map hashFn).count k) else none) := by
  have H := hash_images_go_spec hashFn images [] [] [] 0
    (by intro k; simp [alookup]) (by intro k; simp [alookup])
  refine ⟨?_, ?_, ?_, ?_⟩
  · intro k
    rw [show (hash_images hashFn images).1 = (hash_images_go hashFn images [] [] 0).1
      from rfl]
    rw [H.1 k]
    simp only [List.nil_append]
    rw [List.getLast?_isSome]
    constructor
    · intro hne
      obtain ⟨i, hi⟩ := List.exists_mem_of_ne_nil _ hne
      have := List.of_mem_filter hi
      simp only [decide_eq_true_eq] at this
      exact this ▸ List.mem_map_of_mem hashFn (List.mem_of_mem_filter hi)
    · intro hm
      obtain ⟨i, hi, hhi⟩ := List.mem_map.mp hm
      intro hnil
      have : i ∈ images.filter (fun i => decide (hashFn i = k)) :=
        List.mem_filter.mpr ⟨hi, by simp [hhi]⟩
      rw [hnil] at this
      simp at this
  · intro k
    have := H.1 k
    simpa using this
  · have := H.2.2
    simpa using this
  · intro k
    have := H.2.1 k
    simpa using this

/-- Split of a character list at every occurrence of a separator
character (Python `str.split(sep)` with a one-character separator: returns
one more part, possibly empty, than the number of separators). -/
def splitOnChar (c : Char) : List Char → List (List Char)
  | [] => [[]]
  | a :: rest =>
    let r := splitOnChar c rest
    if a = c then [] :: r
    else
      match r with
      | [] => [[a]]
      | h :: t => (a :: h) :: t

/-- Python `str.split()` with no argument: split on whitespace and drop
empty parts (modelled for spaces and tabs, the separators that occur in
scheduler host files). -/
def splitWS (s : List Char) : List (List Char) :=
  (((splitOnChar ' ' s).map (splitOnChar '\t')).flatten).filter
    (fun t => decide (t ≠ []))

/-- Accumulating decimal-digit parse. -/
def digitsValGo : List Char → Nat → Option Nat
  | [], acc => some acc
  | c :: rest, acc =>
    if 48 ≤ c.toNat ∧ c.toNat ≤ 57 then
      digitsValGo rest (acc * 10 + (c.toNat - 48))
    else none

/-- Value of a nonempty all-digit character list. -/
def digitsVal : List Char → Option Nat
  | [] => none
  | l => digitsValGo l 0

/-- Python `int(...)` applied to a string: optional sign followed by at
least one decimal digit; `none` models the `ValueError` that the `except`
clauses of `assign_cores` catch.  (Surrounding whitespace is not modelled;
the environment values in scope never carry any.) -/
def pyInt (s : String) : Option Int :=
  match s.data with
  | '-' :: rest => (digitsVal rest).map (fun n => -(n : Int))
  | '+' :: rest => (digitsVal rest).map (fun n => (n : Int))
  | l => (digitsVal l).map (fun n => (n : Int))

/-- Log entries written by `assign_cores`: free-form messages, one entry
per environment variable in the diagnostic dump, and one entry per node in
the success report. -/
inductive LogEntry where
  | msg : String → LogEntry
  | envVar : String → String → LogEntry
  | coreCount : String → Int → LogEntry
deriving DecidableEq, Repr

/-- The two shapes `assign_cores` accepts for an explicit `cores`
argument: an integer or an already-built node ↦ count dictionary. -/
inductive CoresIn where
  | int : Int → CoresIn
  | dict : List (String × Int) → CoresIn
deriving DecidableEq, Repr

/-- Environment observed by `assign_cores`: the process environment
variables, the lines of the file named by `PE_HOSTFILE`, and the local CPU
count reported by `multiprocessing.cpu_count()`. -/
structure SchedEnv where
  vars : List (String × String)
  peHostfileLines : List String
  cpuCount : Nat

/-- Lookup of an environment variable (`os.environ`). -/
def envLookup (env : SchedEnv) (key : String) : Option String :=
  alookup env.vars key

/-- Log written by the local `fail` helper of `assign_cores`: the apology
message naming the batching system, then a dump of every environment
variable. -/
def failLog (env : SchedEnv) (q : String) : List LogEntry :=
  LogEntry.msg ("Auto core detection is either not set up or not working for your version of " ++ q)
    :: LogEntry.msg "Environment dump:"
    :: env.vars.map (fun kv => LogEntry.envVar kv.1 kv.2)

/-- Log written by the local `success` helper of `assign_cores`. -/
def successLog (q : String) (cores : List (String × Int)) : List LogEntry :=
  LogEntry.msg ("Parallel configuration determined from environment for " ++ q)
    :: cores.map (fun kv => LogEntry.coreCount kv.1 kv.2)

/-- Parse of `SLURM_NODELIST` in the multi-node SLURM branch: either a
plain comma-separated node list, or the bracketed form
`prename[numbers]`; more than one opening bracket makes the two-value
unpacking raise (`none`, caught by the `except`). -/
def slurmNodes (nodes : String) : Option (List String) :=
  match splitOnChar '[' nodes.data with
  | [single] => some ((splitOnChar ',' single).map String.mk)
  | [prename, numbers] =>
      some ((splitOnChar ',' numbers.dropLast).map
        (fun num => String.mk (prename ++ num)))
  | _ => none

/-- Line-by-line parse of the SGE `PE_HOSTFILE`: each line contributes its
first token as hostname and its integer second token as core count; a
short line or a bad integer raises (`none`). -/
def parseHostfileGo : List String → List (String × Int) → Option (List (String × Int))
  | [], acc => some acc
  | line :: rest, acc =>
    match splitWS line.data with
    | hostname :: nc :: _ =>
      match pyInt (String.mk nc) with
      | some n => parseHostfileGo rest (upsert (String.mk hostname) n acc)
      | none => none
    | _ => none

/-- Parse of the whole SGE `PE_HOSTFILE`. -/
def parseHostfile (lines : List String) : Option (List (String × Int)) :=
  parseHostfileGo lines []

/-- Embedding of `assign_cores`: the explicit-cores paths, then detection
of SLURM (parsed), PBS and LOADL (recognised but unsupported, always
fail), SGE (parsed from the hostfile), and the final fallback to the local
CPU count.  The first component models the returned value (`Except.error q`
models the `NotImplementedError` raised by `fail` for batching system
`q`); the second component is the written log. -/
def assign_cores (cores : Option CoresIn) (env : SchedEnv) :
    Except String CoresIn × List LogEntry :=
  match cores with
  | some (CoresIn.int n) =>
    if n = 1 then
      (Except.ok (CoresIn.int 1),
        [LogEntry.msg "Serial operation on one core specified."])
    else
      (Except.ok (CoresIn.dict [("localhost", n)]),
        successLog "<user-specified>" [("localhost", n)])
  | some (CoresIn.dict d) =>
    (Except.ok (CoresIn.dict d), successLog "<user-specified>" d)
  | none =>
    if (envLookup env "SLURM_NODELIST").isSome then
      match (envLookup env "SLURM_NNODES").bind pyInt,
            (envLookup env "SLURM_NTASKS_PER_NODE").bind pyInt with
      | some nnodes, some tpn =>
        if nnodes = 1 then
          (Except.ok (CoresIn.dict [("localhost", tpn)]),
            successLog "SLURM" [("localhost", tpn)])
        else
          match slurmNodes ((envLookup env "SLURM_NODELIST").getD "") with
          | some nodeNames =>
            (Except.ok (CoresIn.dict (nodeNames.dedup.map (fun nd => (nd, tpn)))),
              successLog "SLURM" (nodeNames.dedup.map (fun nd => (nd, tpn))))
          | none => (Except.error "SLURM", failLog env "SLURM")
      | _, _ => (Except.error "SLURM", failLog env "SLURM")
    else if (envLookup env "PBS_NODEFILE").isSome then
      (Except.error "PBS", failLog env "PBS")
    else if (envLookup env "LOADL_PROCESSOR_LIST").isSome then
      (Except.error "LOADL", failLog env "LOADL")
    else if (envLookup env "PE_HOSTFILE").isSome then
      match parseHostfile env.peHostfileLines with
      | some cs => (Except.ok (CoresIn.dict cs), successLog "SGE" cs)
      | none => (Except.error "SGE", failLog env "SGE")
    else
      (Except.ok (CoresIn.dict [("localhost", (env.cpuCount : Int))]),
        LogEntry.msg "No queuing system detected; single machine assumed."
          :: successLog "<single machine>" [("localhost", (env.cpuCount : Int))])

/-- Environment with no batch-scheduler variables at all. -/
def noSchedEnv : SchedEnv := ⟨[("HOME", "/root"), ("PATH", "/usr/bin")], [], 4⟩

/-- Counterexample for C7: in an environment with no recognised
batch-scheduler variables, `assign_cores(None)` does not raise — it
silently guesses `localhost: cpu_count()` — contrary to the claim that an
unrecognised environment raises a `SchedulerDetectionFailure`. -/
theorem assign_cores_no_scheduler_cex :
    envLookup noSchedEnv "SLURM_NODELIST" = none ∧
    envLookup noSchedEnv "PBS_NODEFILE" = none ∧
    envLookup noSchedEnv "LOADL_PROCESSOR_LIST" = none ∧
    envLookup noSchedEnv "PE_HOSTFILE" = none ∧
    (assign_cores none noSchedEnv).1 =
      Except.ok (CoresIn.dict [("localhost", 4)]) := by
  refine ⟨rfl, rfl, rfl, rfl, rfl⟩

theorem mem_failLog (env : SchedEnv) (q : String) :
    ∀ kv ∈ env.vars, LogEntry.envVar kv.1 kv.2 ∈ failLog env q := by
  intro kv hkv
  unfold failLog
  simp only [List.mem_cons, List.mem_map]
  exact Or.inr (Or.inr ⟨kv, hkv, rfl⟩)

theorem assign_cores_shape (env : SchedEnv) :
    (∃ c l, assign_cores none env = (Except.ok c, l)) ∨
    (∃ q, assign_cores none env = (Except.error q, failLog env q)) := by
  unfold assign_cores
  cases hS : envLookup env "SLURM_NODELIST" with
  | some nodes =>
    simp only [Option.isSome_some, if_true]
    cases hA : (envLookup env "SLURM_NNODES").bind pyInt with
    | none =>
      cases hB : (envLookup env "SLURM_NTASKS_PER_NODE").bind pyInt with
      | none => exact Or.inr ⟨"SLURM", rfl⟩
      | some tpn => exact Or.inr ⟨"SLURM", rfl⟩
    | some nnodes =>
      cases hB : (envLookup env "SLURM_NTASKS_PER_NODE").bind pyInt with
      | none => exact Or.inr ⟨"SLURM", rfl⟩
      | some tpn =>
        by_cases h1 : nnodes = 1
        · subst h1
          exact Or.inl ⟨_, _, rfl⟩
        · simp only [if_neg h1]
          cases hN : slurmNodes ((some nodes).getD "") with
          | some nodeNames => exact Or.inl ⟨_, _, rfl⟩
          | none => exact Or.inr ⟨"SLURM", rfl⟩
  | none =>
    simp only [Option.isSome_none, Bool.false_eq_true, if_false]
    cases hP : envLookup env "PBS_NODEFILE" with
    | some v =>
      simp only [Option.isSome_some, if_true]
      exact Or.inr ⟨"PBS", rfl⟩
    | none =>
      simp only [Option.isSome_none, Bool.false_eq_true, if_false]
      cases hL : envLookup env "LOADL_PROCESSOR_LIST" with
      | some v =>
        simp only [Option.isSome_some, if_true]
        exact Or.inr ⟨"LOADL", rfl⟩
      | none =>
        simp only [Option.isSome_none, Bool.false_eq_true, if_false]
        cases hG : envLookup env "PE_HOSTFILE" with
        | some v =>
          simp only [Option.isSome_some, if_true]
          cases hH : parseHostfile env.peHostfileLines with
          | some cs => exact Or.inl ⟨_, _, rfl⟩
          | none => exact Or.inr ⟨"SGE", rfl⟩
        | none =>
          simp only [Option.isSome_none, Bool.false_eq_true, if_false]
          exact Or.inl ⟨_, _, rfl⟩

/-- C7 (amended): whenever the automatic detection path (`cores=None`)
fails — a recognised batch-scheduler environment it cannot parse (SLURM
with missing or non-integer node variables, SLURM with a malformed node
list, SGE with an unparseable hostfile) or the always-unsupported
PBS/LOADL schedulers — `assign_cores` raises only after dumping the full
environment to the log; but when no batch-scheduler environment is
recognised at all, it does not raise: it falls back to the local CPU
count (`localhost: cpu_count()`). -/
theorem assign_cores_detection_spec (env : SchedEnv) :
    (∀ q, (assign_cores none env).1 = Except.error q →
      ∀ kv ∈ env.vars, LogEntry.envVar kv.1 kv.2 ∈ (assign_cores none env).2) ∧
    (envLookup env "SLURM_NODELIST" = none →
      (envLookup env "PBS_NODEFILE").isSome →
      (assign_cores none env).1 = Except.error "PBS") ∧
    (envLookup env "SLURM_NODELIST" = none →
      envLookup env "PBS_NODEFILE" = none →
      (envLookup env "LOADL_PROCESSOR_LIST").isSome →
      (assign_cores none env).1 = Except.error "LOADL") ∧
    (envLookup env "SLURM_NODELIST" = none →
      envLookup env "PBS_NODEFILE" = none →
      envLookup env "LOADL_PROCESSOR_LIST" = none →
      envLookup env "PE_HOSTFILE" = none →
      (assign_cores none env).1 =
        Except.ok (CoresIn.dict [("localhost", (env.cpuCount : Int))])) ∧
    ((envLookup env "SLURM_NODELIST").isSome →
      ((envLookup env "SLURM_NNODES").bind pyInt = none ∨
        (envLookup env "SLURM_NTASKS_PER_NODE").bind pyInt = none) →
      (assign_cores none env).1 = Except.error "SLURM") ∧
    (∀ nodes nnodes tpn, envLookup env "SLURM_NODELIST" = some nodes →
      (envLookup env "SLURM_NNODES").bind pyInt = some nnodes →
      (envLookup env "SLURM_NTASKS_PER_NODE").bind pyInt = some tpn →
      nnodes ≠ 1 → slurmNodes nodes = none →
      (assign_cores none env).1 = Except.error "SLURM") ∧
    (envLookup env "SLURM_NODELIST" = none →
      envLookup env "PBS_NODEFILE" = none →
      envLookup env "LOADL_PROCESSOR_LIST" = none →
      (envLookup env "PE_HOSTFILE").isSome →
      parseHostfile env.peHostfileLines = none →
      (assign_cores none env).1 = Except.error "SGE") := by
  refine ⟨?_, ?_, ?_, ?_, ?_, ?_, ?_⟩
  · intro q hq kv hkv
    rcases assign_cores_shape env with ⟨c, l, heq⟩ | ⟨q', heq⟩
    · rw [heq] at hq
      exact absurd hq (by simp)
    · rw [heq]
      exact mem_failLog env q' kv hkv
  · intro h1 h2
    unfold assign_cores
    rw [h1]
    simp only [Option.isSome_none, Bool.false_eq_true, if_false]
    rw [if_pos h2]
  · intro h1 h2 h3
    unfold assign_cores
    rw [h1, h2]
    simp only [Option.isSome_none, Bool.false_eq_true, if_false]
    rw [if_pos h3]
  · intro h1 h2 h3 h4
    unfold assign_cores
    rw [h1, h2, h3, h4]
    simp only [Option.isSome_none, Bool.false_eq_true, if_false]
  · intro hS hor
    unfold assign_cores
    rw [if_pos hS]
    rcases hor with h | h
    · cases hB : (envLookup env "SLURM_NTASKS_PER_NODE").bind pyInt with
      | none => simp only [h, hB]
      | some tpn => simp only [h, hB]
    · cases hA : (envLookup env "SLURM_NNODES").bind pyInt with
      | none => simp only [h, hA]
      | some nnodes => simp only [h, hA]
  · intro nodes nnodes tpn hS hA hB hne hN
    unfold assign_cores
    rw [hS]
    simp only [Option.isSome_some, if_true, hA, hB, if_neg hne, Option.getD_some, hN]
  · intro h1 h2 h3 hG hH
    unfold assign_cores
    rw [h1, h2, h3]
    simp only [Option.isSome_none, Bool.false_eq_true, if_false]
    rw [if_pos hG, hH]

/-- Environment that only sets `PBS_NODEFILE`. -/
def pbsEnv : SchedEnv := ⟨[("PBS_NODEFILE", "/var/spool/pbs/nodes")], [], 8⟩

/-- Environment that sets `SLURM_NODELIST` but no `SLURM_NNODES`, so the
SLURM branch cannot parse it. -/
def slurmBadEnv : SchedEnv := ⟨[("SLURM_NODELIST", "node[01,02]")], [], 8⟩

/-- Witness for C7's amended theorem: a PBS environment fails with an
error for "PBS", and an unparseable SLURM environment (node list present,
node count missing) fails with an error for "SLURM". -/
theorem assign_cores_detection_spec_witness :
    (assign_cores none pbsEnv).1 = Except.error "PBS" ∧
    (assign_cores none slurmBadEnv).1 = Except.error "SLURM" :=
  ⟨(assign_cores_detection_spec pbsEnv).2.1 rfl (by rfl),
    (assign_cores_detection_spec slurmBadEnv).2.2.2.2.1 (by rfl) (Or.inl rfl)⟩

end Amp
